import Mathlib

/-!
Verification of the fee-schedule parsing core of the Financial Adviser Fee
Structure Analysis repository.

The development shallowly embeds the core functions of
`enhanced_fee_analysis.py` (`extract_fee_range`, `process_flat_fee`,
`process_minimum_investment`, `process_negotiable_threshold`,
`identify_products`, `calculate_effective_fee`) and the variants of
`enhanced_fee_analysis_step3.py` (`Step3.extract_fee_range`,
`Step3.identify_products`).

Modelling conventions:
* Python floats are modelled by exact rationals (`ℚ`); the decimal literals
  appearing in the source and in the data are exactly representable.
* Python's `float('inf')` upper bound is the explicit constructor
  `UpperBound.unbounded`; a missing value (`None`, or a NaN cell) is `none`.
* A data-frame row is a `FilingRow`: the flat-fee flag and value produced by
  the earlier pipeline steps, plus the up-to-8 threshold text cells.
* The regular-expression searches of the source
  (`re.search(r'(\d+\.?\d*)%', s)` and friends) are embedded as executable
  leftmost searches with the greedy/backtracking semantics of the Python
  `re` module specialised to these patterns: a numeric token
  `\d+,?\d*\.?\d*` is matched greedily, and when the pattern continues after
  the token (`%`, `+`, or `\s*-\s*\$...`), characters are given back from the
  end of the greedy match one at a time, exactly as the `re` engine
  backtracks its quantifiers for these patterns.
-/

set_option maxRecDepth 8192

/-- Upper bound of a fee tier: a finite currency amount, or `float('inf')`. -/
inductive UpperBound
  | bounded (q : ℚ)
  | unbounded
deriving DecidableEq

/-- One fee tier, as stored in the `tiers` list of a tiered product dict:
`{'lower': ..., 'upper': ..., 'fee': ...}`. -/
structure Tier where
  lower : ℚ
  upper : UpperBound
  fee : ℚ
deriving DecidableEq

/-- A product dict of `identify_products`: either a flat-fee product
(`{'type': 'flat', 'fee': ...}`, whose fee may be `None`) or a tiered
product (`{'type': 'tiered', 'tiers': [...]}`). -/
inductive FeeProduct
  | flat (fee : Option ℚ)
  | tiered (tiers : List Tier)
deriving DecidableEq

/-- The inputs of `identify_products` taken from one data-frame row: the
flat-fee flag and value computed by `process_flat_fee`, and the up-to-8
threshold/range text cells (`none` models a NaN cell). -/
structure FilingRow where
  has_flat_fee : Bool
  flat_fee_value : Option ℚ
  cells : List (Option String)

/-! ### Embedded regular-expression machinery -/

/-- Python `str.lower()` (ASCII case folding, as needed for these cells). -/
def strLower (s : String) : String := ⟨s.data.map Char.toLower⟩

/-- Python `str.strip()`: drop leading and trailing whitespace. -/
def strStrip (s : String) : String :=
  ⟨((s.data.dropWhile Char.isWhitespace).reverse.dropWhile Char.isWhitespace).reverse⟩

/-- Value of a run of decimal digits. -/
def digitsToNat (cs : List Char) : Nat :=
  cs.foldl (fun n c => 10 * n + (c.toNat - Char.toNat '0')) 0

/-- `float(g.replace(',', ''))` on a regex group `g` of shape
`\d+,?\d*\.?\d*`: strip commas, then read an exact decimal number. -/
def parseDecimal (cs : List Char) : ℚ :=
  let cs' := cs.filter (fun c => c ≠ ',')
  let ip := cs'.takeWhile Char.isDigit
  let rest := cs'.dropWhile Char.isDigit
  match rest with
  | '.' :: frac =>
    let den : Nat := 10 ^ frac.length
    mkRat (Int.ofNat (digitsToNat ip * den + digitsToNat frac)) den
  | _ => (digitsToNat ip : ℚ)

/-- Greedy run of decimal digits (regex `\d*`). -/
def spanDigits (cs : List Char) : List Char × List Char :=
  (cs.takeWhile Char.isDigit, cs.dropWhile Char.isDigit)

/-- Greedy match of the numeric token `\d+,?\d*\.?\d*` (when `comma = true`)
or `\d+\.?\d*` (when `comma = false`) at the head of the input.  Returns the
matched characters and the remaining input; fails unless the input starts
with a digit. -/
def matchNumTok (comma : Bool) (cs : List Char) : Option (List Char × List Char) :=
  match cs with
  | [] => none
  | c :: _ =>
    if c.isDigit then
      let s1 := spanDigits cs
      let s2 : List Char × List Char :=
        match s1.2 with
        | ',' :: t => if comma then ([','], t) else ([], s1.2)
        | _ => ([], s1.2)
      let s3 := spanDigits s2.2
      let s4 : List Char × List Char :=
        match s3.2 with
        | '.' :: t => (['.'], t)
        | _ => ([], s3.2)
      let s5 := spanDigits s4.2
      some (s1.1 ++ s2.1 ++ s3.1 ++ s4.1 ++ s5.1, s5.2)
    else none

/-- Backtracking of the `re` engine after a greedy numeric-token match when
the pattern continues: `gr` is the reversed greedy match; characters are
given back from its end one at a time until the continuation `f` succeeds
on the remaining input.  (Every nonempty prefix of a greedy numeric-token
match is itself a valid token match, and the engine visits exactly these
candidate split points, longest first.) -/
def shrinkMatch {β : Type} (f : List Char → Option β) :
    List Char → List Char → Option (List Char × β)
  | [], _ => none
  | c :: gr, rest =>
    match f rest with
    | some b => some ((c :: gr).reverse, b)
    | none => shrinkMatch f gr (c :: rest)

/-- `re.search`: try the pattern at each start position, leftmost first. -/
def reSearch {α : Type} (tryAt : List Char → Option α) : List Char → Option α
  | [] => none
  | c :: cs =>
    match tryAt (c :: cs) with
    | some r => some r
    | none => reSearch tryAt cs

/-- Continuation of the `(\d+\.?\d*)%` pattern after its group: `%`. -/
def pctFollow (rest : List Char) : Option Unit :=
  match rest with
  | '%' :: _ => some ()
  | _ => none

/-- Attempt `(\d+\.?\d*)%` at the current position. -/
def tryPct (cs : List Char) : Option ℚ :=
  match matchNumTok false cs with
  | some gr => (shrinkMatch pctFollow gr.1.reverse gr.2).map (fun pr => parseDecimal pr.1)
  | none => none

/-- `re.search(r'(\d+\.?\d*)%', s)`, converted to a number. -/
def pctSearch (s : String) : Option ℚ := reSearch tryPct s.data

/-- Greedy `\s*`. -/
def dropWs (cs : List Char) : List Char := cs.dropWhile Char.isWhitespace

/-- Continuation of the bounded-range pattern after its first group:
`\s*-\s*\$(\d+,?\d*\.?\d*)`; returns the second group. -/
def rangeFollow (rest : List Char) : Option (List Char) :=
  match dropWs rest with
  | '-' :: r2 =>
    match dropWs r2 with
    | '$' :: r3 => (matchNumTok true r3).map Prod.fst
    | _ => none
  | _ => none

/-- Attempt `\$(\d+,?\d*\.?\d*)\s*-\s*\$(\d+,?\d*\.?\d*)` at the current
position. -/
def tryRange (cs : List Char) : Option (ℚ × ℚ) :=
  match cs with
  | '$' :: cs1 =>
    match matchNumTok true cs1 with
    | some gr =>
      (shrinkMatch rangeFollow gr.1.reverse gr.2).map
        (fun pr => (parseDecimal pr.1, parseDecimal pr.2))
    | none => none
  | _ => none

/-- `re.search(r'\$(\d+,?\d*\.?\d*)\s*-\s*\$(\d+,?\d*\.?\d*)', s)`. -/
def rangeSearch (s : String) : Option (ℚ × ℚ) := reSearch tryRange s.data

/-- Continuation of the open-range pattern after its group: `+`. -/
def plusFollow (rest : List Char) : Option Unit :=
  match rest with
  | '+' :: _ => some ()
  | _ => none

/-- Attempt `\$(\d+,?\d*\.?\d*)\+` at the current position. -/
def tryPlus (cs : List Char) : Option ℚ :=
  match cs with
  | '$' :: cs1 =>
    match matchNumTok true cs1 with
    | some gr => (shrinkMatch plusFollow gr.1.reverse gr.2).map (fun pr => parseDecimal pr.1)
    | none => none
  | _ => none

/-- `re.search(r'\$(\d+,?\d*\.?\d*)\+', s)`. -/
def plusSearch (s : String) : Option ℚ := reSearch tryPlus s.data

/-- Attempt `\$(\d+,?\d*\.?\d*)` at the current position. -/
def tryDollar (cs : List Char) : Option ℚ :=
  match cs with
  | '$' :: cs1 => (matchNumTok true cs1).map (fun pr => parseDecimal pr.1)
  | _ => none

/-- `re.search(r'\$(\d+,?\d*\.?\d*)', s)`. -/
def dollarSearch (s : String) : Option ℚ := reSearch tryDollar s.data

/-- Attempt a bare numeric token at the current position. -/
def tryNum (comma : Bool) (cs : List Char) : Option ℚ :=
  (matchNumTok comma cs).map (fun pr => parseDecimal pr.1)

/-- `re.search(r'(\d+\.?\d*)', s)` (`comma = false`, used by
`process_flat_fee`) or `re.search(r'(\d+,?\d*\.?\d*)', s)` (`comma = true`,
used by `process_minimum_investment` / `process_negotiable_threshold`). -/
def numSearch (comma : Bool) (s : String) : Option ℚ := reSearch (tryNum comma) s.data

/-! ### Range Extractor -/

/-- Result triple of `extract_fee_range`: the lower bound, the upper bound
(`none` = Python `None`; `some .unbounded` = `float('inf')`), and the fee
percentage. -/
structure ExtractRes where
  lower : Option ℚ
  upper : Option UpperBound
  fee : Option ℚ
deriving DecidableEq

/-- `extract_fee_range` of `enhanced_fee_analysis.py` (lines 76-117). -/
def extract_fee_range : Option String → ExtractRes
  | none => ⟨none, none, none⟩
  | some s =>
    if strLower s = "n/a" ∨ strStrip s = "" then ⟨none, none, none⟩
    else
      let lu : Option ℚ × Option UpperBound :=
        match rangeSearch s with
        | some ab => (some ab.1, some (UpperBound.bounded ab.2))
        | none =>
          match plusSearch s with
          | some a => (some a, some UpperBound.unbounded)
          | none =>
            match dollarSearch s with
            | some a => (some a, none)
            | none => (none, none)
      ⟨lu.1, lu.2, pctSearch s⟩

namespace Step3

/-- `extract_fee_range` of `enhanced_fee_analysis_step3.py` (lines 6-49):
same patterns, but the sentinel set is `''`, `'n/a'`, `'na'`, `'-1'`. -/
def extract_fee_range : Option String → ExtractRes
  | none => ⟨none, none, none⟩
  | some s =>
    if s = "" ∨ strLower s = "n/a" ∨ strLower s = "na" ∨ strLower s = "-1" then ⟨none, none, none⟩
    else
      let fee := pctSearch s
      let lu : Option ℚ × Option UpperBound :=
        match rangeSearch s with
        | some ab => (some ab.1, some (UpperBound.bounded ab.2))
        | none =>
          match plusSearch s with
          | some a => (some a, some UpperBound.unbounded)
          | none =>
            match dollarSearch s with
            | some a => (some a, none)
            | none => (none, none)
      ⟨lu.1, lu.2, fee⟩

end Step3

/-! ### Field Normalizer -/

/-- `process_flat_fee` of `enhanced_fee_analysis.py` (lines 44-74).
Returns `(has_flat_fee, flat_fee_value)`. -/
def process_flat_fee : Option String → Nat × Option ℚ
  | none => (0, none)
  | some s =>
    if strLower s = "no" ∨ strStrip s = "" then (0, none)
    else
      match pctSearch s with
      | some v => (1, some v)
      | none =>
        match dollarSearch s with
        | some v => (1, some v)
        | none =>
          if strLower s = "yes" ∨ strLower s = "y" ∨ strLower s = "true" then (1, none)
          else
            match numSearch false s with
            | some v => (1, some v)
            | none => (1, none)

/-- `process_minimum_investment` of `enhanced_fee_analysis.py`
(lines 119-144).  Returns `(has_min_inv, min_inv_amount)`. -/
def process_minimum_investment : Option String → Nat × Option ℚ
  | none => (0, none)
  | some s =>
    if strLower s = "no" ∨ strLower s = "n/a" ∨ strStrip s = "" then (0, none)
    else
      match dollarSearch s with
      | some v => (1, some v)
      | none =>
        match numSearch true s with
        | some v => (1, some v)
        | none =>
          if strLower s = "yes" ∨ strLower s = "y" ∨ strLower s = "true" then (1, none)
          else (0, none)

/-- `process_negotiable_threshold` of `enhanced_fee_analysis.py`
(lines 159-180).  Returns `(has_neg_thresh, neg_thresh_amount)`. -/
def process_negotiable_threshold : Option String → Nat × Option ℚ
  | none => (0, none)
  | some s =>
    if strLower s = "no" ∨ strLower s = "n/a" ∨ strStrip s = "" then (0, none)
    else
      match dollarSearch s with
      | some v => (1, some v)
      | none =>
        match numSearch true s with
        | some v => (1, some v)
        | none => (0, none)

/-! ### Product Segmenter -/

/-- Tier-or-discard decision applied to one extraction result by both
`identify_products` implementations: keep the range only when the fee and
the lower bound are present (`if fee is not None and lower is not None`),
collapsing a missing upper bound to `float('inf')`
(`upper if upper is not None else float('inf')`). -/
def tierOfExtract (e : ExtractRes) : Option Tier :=
  match e.lower, e.fee with
  | some l, some f => some ⟨l, e.upper.getD UpperBound.unbounded, f⟩
  | _, _ => none

/-- Continuation test of `identify_products` in `enhanced_fee_analysis.py`
(line 211): `abs(last_tier['upper'] - lower) < 0.01 or
last_tier['upper'] == float('inf')`.  (For an unbounded upper the first
disjunct is false — `abs(inf - lower)` is `inf` — and the second is true.) -/
def tierContinues (last : Tier) (lower : ℚ) : Bool :=
  match last.upper with
  | UpperBound.bounded u => |u - lower| < 1/100
  | UpperBound.unbounded => true

/-- The inner `for product in products` scan of `identify_products` in
`enhanced_fee_analysis.py` (lines 207-219): append the range to the first
tiered product whose last tier passes `tierContinues`; `none` when no
product accepts it. -/
def appendTier : List FeeProduct → Tier → Option (List FeeProduct)
  | [], _ => none
  | FeeProduct.tiered ts :: ps, t =>
    match ts.getLast? with
    | some lt =>
      if tierContinues lt t.lower then some (FeeProduct.tiered (ts ++ [t]) :: ps)
      else (appendTier ps t).map (fun ps' => FeeProduct.tiered ts :: ps')
    | none => (appendTier ps t).map (fun ps' => FeeProduct.tiered ts :: ps')
  | p :: ps, t => (appendTier ps t).map (fun ps' => p :: ps')

/-- Per-cell step of the threshold-column loop of `identify_products` in
`enhanced_fee_analysis.py` (lines 198-231): skip NaN and literal `'N/A'`
cells, extract, discard ranges missing lower bound or fee, and otherwise
append to an existing tiered product or start a new one at the end. -/
def step1 (acc : List FeeProduct) (cell : Option String) : List FeeProduct :=
  match cell with
  | none => acc
  | some s =>
    if s = "N/A" then acc
    else
      match tierOfExtract (extract_fee_range (some s)) with
      | some t =>
        match appendTier acc t with
        | some acc' => acc'
        | none => acc ++ [FeeProduct.tiered [t]]
      | none => acc

/-- Sort key of the final product ordering (lines 234-243): the first tier's
fee for tiered products, the flat value for flat products; `none` models the
`float('inf')` fallback for a product with no derivable key. -/
def sortKey (p : FeeProduct) : Option ℚ :=
  match p with
  | FeeProduct.flat f => f
  | FeeProduct.tiered (t :: _) => some t.fee
  | FeeProduct.tiered [] => none

/-- Comparison used by the stable `products.sort(key=...)` call:
`x['first_tier_fee'] if x['first_tier_fee'] is not None else float('inf')`,
with `none` acting as `float('inf')`. -/
def keyLe (a b : FeeProduct) : Bool :=
  match sortKey a, sortKey b with
  | some x, some y => x ≤ y
  | some _, none => true
  | none, some _ => false
  | none, none => true

/-- `identify_products` of `enhanced_fee_analysis.py` (lines 182-246):
flat-fee product first, then the threshold-column walk, then the stable
sort by first-tier fee.  (Python's `list.sort` is stable; `insertionSort`
with the non-strict `keyLe` is the stable sort by this key.)  Returns
`(product_count, products)`. -/
def identify_products (row : FilingRow) : Nat × List FeeProduct :=
  let ps0 := if row.has_flat_fee then [FeeProduct.flat row.flat_fee_value] else []
  let ps := row.cells.foldl step1 ps0
  let sorted := List.insertionSort (fun a b => keyLe a b = true) ps
  (sorted.length, sorted)

namespace Step3

/-- Retained threshold ranges of `identify_products` in
`enhanced_fee_analysis_step3.py` (lines 70-82): all non-NaN cells are
extracted in column order and ranges missing lower bound or fee are
discarded. -/
def retainedRanges : List (Option String) → List Tier
  | [] => []
  | none :: cs => retainedRanges cs
  | some s :: cs =>
    match tierOfExtract (Step3.extract_fee_range (some s)) with
    | some t => t :: retainedRanges cs
    | none => retainedRanges cs

/-- Continuation test of `identify_products` in
`enhanced_fee_analysis_step3.py` (line 100):
`abs(fee_range['lower'] - last_upper) < 0.01 or last_upper == float('inf')`. -/
def contCond (lastUpper : UpperBound) (lower : ℚ) : Bool :=
  match lastUpper with
  | UpperBound.bounded u => |lower - u| < 1/100
  | UpperBound.unbounded => true

/-- The grouping loop of `identify_products` in
`enhanced_fee_analysis_step3.py` (lines 96-111): walk the sorted ranges,
keeping the current product's tiers (`cur`) and the previous range's upper
bound (`lastUpper`); a range passing `contCond` joins the current product,
any other range starts a new product. -/
def groupChain (cur : List Tier) (lastUpper : UpperBound) : List Tier → List (List Tier)
  | [] => [cur]
  | r :: rs =>
    if contCond lastUpper r.lower then groupChain (cur ++ [r]) r.upper rs
    else cur :: groupChain [r] r.upper rs

/-- `identify_products` of `enhanced_fee_analysis_step3.py` (lines 51-125):
flat product only when the flat value is present
(`not pd.isna(row['flat_fee_value'])`), ranges collected then sorted
ascending by lower bound (stable), grouped into products by `groupChain`,
and finally the stable sort by first-tier fee. -/
def identify_products (row : FilingRow) : Nat × List FeeProduct :=
  let ps0 :=
    if row.has_flat_fee && row.flat_fee_value.isSome then [FeeProduct.flat row.flat_fee_value]
    else []
  let rs := List.insertionSort (fun a b : Tier => a.lower ≤ b.lower) (retainedRanges row.cells)
  let tieredPs : List FeeProduct :=
    match rs with
    | [] => []
    | r :: rest => (groupChain [r] r.upper rest).map FeeProduct.tiered
  let ps := ps0 ++ tieredPs
  let sorted := List.insertionSort (fun a b => keyLe a b = true) ps
  (sorted.length, sorted)

end Step3

/-! ### Effective Fee Calculator -/

/-- The tier-walk loop of `calculate_effective_fee` (lines 262-284 of
`enhanced_fee_analysis.py`; the code of `enhanced_fee_analysis_step3.py`
lines 141-163 is textually identical): threading `remaining_value`, the
loop accumulates `total_fee`; an unbounded tier consumes all remaining
value, a bounded tier consumes `min(upper - lower, remaining)`; the loop
breaks once the remaining value is ≤ 0.  Returns
`(total_fee, remaining_value)`. -/
def feeWalk : List Tier → ℚ → ℚ × ℚ
  | [], r => (0, r)
  | t :: ts, r =>
    if r ≤ 0 then (0, r)
    else
      match t.upper with
      | UpperBound.unbounded =>
        let rest := feeWalk ts 0
        (r * (t.fee / 100) + rest.1, rest.2)
      | UpperBound.bounded u =>
        let w := min (u - t.lower) r
        let rest := feeWalk ts (r - w)
        (w * (t.fee / 100) + rest.1, rest.2)

/-- Membership test `p['type'] == 'tiered'`. -/
def FeeProduct.isTiered : FeeProduct → Bool
  | FeeProduct.tiered _ => true
  | _ => false

/-- Membership test `p['type'] == 'flat'`. -/
def FeeProduct.isFlat : FeeProduct → Bool
  | FeeProduct.flat _ => true
  | _ => false

/-- `calculate_effective_fee` of `enhanced_fee_analysis.py` (lines 248-294;
`enhanced_fee_analysis_step3.py` lines 127-173 are textually identical):
`None` for an empty product list; otherwise walk the tiers of the first
tiered product and return `(total_fee / portfolio_value) * 100`; with no
tiered product, fall back to the first flat product's fee (which may itself
be `None`). -/
def calculate_effective_fee (products : List FeeProduct) (portfolio_value : ℚ) : Option ℚ :=
  if products.isEmpty then none
  else
    match products.filter FeeProduct.isTiered with
    | FeeProduct.tiered ts :: _ =>
      some ((feeWalk ts portfolio_value).1 / portfolio_value * 100)
    | _ =>
      match products.filter FeeProduct.isFlat with
      | FeeProduct.flat f :: _ => f
      | _ => none

/-! ### Concrete rows and products used by the claims -/

/-- Row carrying the ranges `(0, 500000, 1.2%)`, `(500000, unbounded, 1.0%)`,
`(0, 1000000, 0.8%)` in that column order (the third restarts at 0 after an
unbounded tier), with no flat fee.  The cell texts are written without
thousands separators so that both extractors recover exactly these ranges. -/
def rowAfterUnbounded : FilingRow :=
  ⟨false, none,
    [some "$0 - $500000 (1.2%)", some "$500000+ (1.0%)", some "$0 - $1000000 (0.8%)"]⟩

/-- Row carrying the three contiguous ranges `(0, 1000000, 1.0%)`,
`(1000000, 5000000, 0.75%)`, `(5000000, unbounded, 0.5%)`, no flat fee. -/
def rowContiguous : FilingRow :=
  ⟨false, none,
    [some "$0 - $1000000 (1.0%)", some "$1000000 - $5000000 (0.75%)", some "$5000000+ (0.5%)"]⟩

/-- The three-tier product `[(0, 1000000, 1.0%), (1000000, 5000000, 0.75%),
(5000000, unbounded, 0.5%)]`. -/
def threeTierProduct : FeeProduct :=
  FeeProduct.tiered
    [⟨0, UpperBound.bounded 1000000, 1⟩, ⟨1000000, UpperBound.bounded 5000000, 0.75⟩,
     ⟨5000000, UpperBound.unbounded, 0.5⟩]

section ConcreteClaims

attribute [local semireducible] Rat.mul Rat.add Rat.sub Rat.inv Rat.ofScientific

/-- Claim C1, settled against the code (code_bug): the claim — and the spec
rule it quotes — says that no range may append after an unbounded tier, so
the ranges of `rowAfterUnbounded` should yield exactly two tiered products.
Neither implementation does this.  In `enhanced_fee_analysis.py` the
condition `abs(last_tier['upper'] - lower) < 0.01 or last_tier['upper'] ==
float('inf')` treats an unbounded upper as a *continuation*, so the third
range is appended after the unbounded tier and exactly one product results.
In `enhanced_fee_analysis_step3.py` the ranges are first sorted by lower
bound, which interleaves the restarted range and yields three single-tier
products (ordered by first-tier fee 0.8, 1.0, 1.2). -/
theorem identify_products_after_unbounded_tier_example :
    identify_products rowAfterUnbounded
      = (1, [FeeProduct.tiered
          [⟨0, UpperBound.bounded 500000, 1.2⟩, ⟨500000, UpperBound.unbounded, 1⟩,
           ⟨0, UpperBound.bounded 1000000, 0.8⟩]]) ∧
    Step3.identify_products rowAfterUnbounded
      = (3, [FeeProduct.tiered [⟨0, UpperBound.bounded 1000000, 0.8⟩],
             FeeProduct.tiered [⟨500000, UpperBound.unbounded, 1⟩],
             FeeProduct.tiered [⟨0, UpperBound.bounded 500000, 1.2⟩]]) := by
  constructor <;> decide

/-- Claim C2, settled against the code (code_bug): on the exact cell
`"$1,000,000+ (0.5%)"` the claim (and the spec's testable property) expects
`(1000000, unbounded, 0.5)`.  The group regex `\$(\d+,?\d*\.?\d*)` admits at
most one comma, so the `\$...\+` pattern cannot match the two-comma amount;
the fallback single-dollar pattern matches only `$1,000`, and both
extractors return lower `1000` with an *absent* upper bound instead. -/
theorem extract_fee_range_million_plus_cell :
    extract_fee_range (some "$1,000,000+ (0.5%)") = ⟨some 1000, none, some 0.5⟩ ∧
    Step3.extract_fee_range (some "$1,000,000+ (0.5%)") = ⟨some 1000, none, some 0.5⟩ := by
  constructor <;> decide

/-- Claim C3, settled against the code (code_bug): the claim promises
`(A, B, C)` exactly for every `"$A - $B (C%)"` cell with thousands
separators.  Because the group regex admits at most one comma, on
`"$500,000 - $1,000,000 (0.75%)"` the one-comma amount `$500,000` parses but
the two-comma upper amount is truncated to `1,000`, so both extractors
return upper bound `1000` instead of `1000000`. -/
theorem extract_fee_range_separated_bounded_range_cell :
    extract_fee_range (some "$500,000 - $1,000,000 (0.75%)")
      = ⟨some 500000, some (UpperBound.bounded 1000), some 0.75⟩ ∧
    Step3.extract_fee_range (some "$500,000 - $1,000,000 (0.75%)")
      = ⟨some 500000, some (UpperBound.bounded 1000), some 0.75⟩ := by
  constructor <;> decide

/-- Claim C4 (confirmed): for the single tiered product with tiers
`[(0, 1000000, 1.0%), (1000000, 5000000, 0.75%), (5000000, unbounded, 0.5%)]`
the Effective Fee Calculator returns exactly `1.0` at portfolio value
`1,000,000` (fee 10,000) and exactly `0.75` at `6,000,000`
(fee 10,000 + 30,000 + 5,000 = 45,000), in exact rational arithmetic. -/
theorem calculate_effective_fee_three_tier_product :
    calculate_effective_fee [threeTierProduct] 1000000 = some 1 ∧
    calculate_effective_fee [threeTierProduct] 6000000 = some 0.75 := by
  constructor <;> decide

/-- Claim C5 (confirmed): given the three contiguous ranges
`[(0, 1000000, 1.0%), (1000000, 5000000, 0.75%), (5000000, unbounded, 0.5%)]`
(the cells of `rowContiguous`) and no flat fee, both Product Segmenter
implementations produce exactly one tiered product containing those three
tiers in that order. -/
theorem identify_products_contiguous_ranges :
    identify_products rowContiguous = (1, [threeTierProduct]) ∧
    Step3.identify_products rowContiguous = (1, [threeTierProduct]) := by
  constructor <;> decide

end ConcreteClaims

/-! ### Invariants of the tier walk (Effective Fee Calculator) -/

/-- With nothing left to consume the walk is inert: every iteration hits the
`remaining_value <= 0` break. -/
theorem feeWalk_nonpos (ts : List Tier) (r : ℚ) (h : r ≤ 0) : feeWalk ts r = (0, r) := by
  cases ts with
  | nil => rfl
  | cons t ts => simp [feeWalk, h]

/-- Special case: the walk started at zero remaining value. -/
theorem feeWalk_zero (ts : List Tier) : feeWalk ts 0 = (0, 0) :=
  feeWalk_nonpos ts 0 le_rfl

/-- The remaining value of the tier walk never becomes negative: a bounded
tier consumes `min(upper - lower, remaining) ≤ remaining`, an unbounded tier
sets it to zero, and the loop breaks at `remaining_value <= 0`. -/
theorem feeWalk_rem_nonneg (ts : List Tier) (r : ℚ) (h : 0 ≤ r) : 0 ≤ (feeWalk ts r).2 := by
  induction ts generalizing r with
  | nil => simpa [feeWalk] using h
  | cons t ts ih =>
    by_cases hr : r ≤ 0
    · simpa [feeWalk, hr] using h
    · cases hu : t.upper with
      | unbounded => simp [feeWalk, hr, hu, feeWalk_zero]
      | bounded u =>
        have hw : min (u - t.lower) r ≤ r := min_le_right _ _
        have : 0 ≤ r - min (u - t.lower) r := by linarith
        simpa [feeWalk, hr, hu] using ih (r - min (u - t.lower) r) this

/-- The tier walk is compositional: the walk over `p ++ q` is the walk over
`p` followed by the walk over `q` started at the remaining value left by
`p`, the dollar fees adding up.  So the state after the `p`-prefix of the
loop is exactly `feeWalk p r`. -/
theorem feeWalk_append (p q : List Tier) (r : ℚ) :
    feeWalk (p ++ q) r
      = ((feeWalk p r).1 + (feeWalk q (feeWalk p r).2).1, (feeWalk q (feeWalk p r).2).2) := by
  induction p generalizing r with
  | nil => simp [feeWalk]
  | cons t p ih =>
    by_cases hr : r ≤ 0
    · simp [feeWalk, hr, feeWalk_nonpos q r hr]
    · cases hu : t.upper with
      | unbounded =>
        simp only [List.cons_append, feeWalk, hr, if_false, hu, ih, feeWalk_zero]
        ring_nf
      | bounded u =>
        have hi := ih (r - min (u - t.lower) r)
        simp only [List.cons_append, feeWalk, hr, if_false, hu, hi]
        simp only [List.append_eq, add_assoc, Prod.mk.injEq]
        exact ⟨by rw [hi], by rw [hi]⟩

/-- Claim C7 (confirmed): during the tier walk of the Effective Fee
Calculator, for every portfolio value `V > 0` and every step of the loop
(i.e. every split `p ++ q` of the tier list), the remaining value after the
`p`-prefix is non-negative, hence the total consumed so far,
`V - (feeWalk p V).2`, never exceeds `V`; the third conjunct identifies
`feeWalk p V` as the intermediate loop state of the full walk. -/
theorem tier_walk_consumption_bounded (p q : List Tier) (V : ℚ) (hV : 0 < V) :
    0 ≤ (feeWalk p V).2 ∧ V - (feeWalk p V).2 ≤ V ∧
    feeWalk (p ++ q) V
      = ((feeWalk p V).1 + (feeWalk q (feeWalk p V).2).1, (feeWalk q (feeWalk p V).2).2) := by
  have h0 := feeWalk_rem_nonneg p V hV.le
  exact ⟨h0, by linarith, feeWalk_append p q V⟩

/-- Witness for C7 at a concrete split: tiers `[(0, 1000, 1%)] ++
[(1000, unbounded, 0.5%)]` and `V = 500`. -/
theorem tier_walk_consumption_bounded_witness :
    (0 : ℚ) < 500 ∧
    0 ≤ (feeWalk [⟨0, UpperBound.bounded 1000, 1⟩] 500).2 ∧
    500 - (feeWalk [⟨0, UpperBound.bounded 1000, 1⟩] 500).2 ≤ 500 :=
  ⟨by decide,
    (tier_walk_consumption_bounded [⟨0, UpperBound.bounded 1000, 1⟩]
      [⟨1000, UpperBound.unbounded, 0.5⟩] 500 (by decide)).1,
    (tier_walk_consumption_bounded [⟨0, UpperBound.bounded 1000, 1⟩]
      [⟨1000, UpperBound.unbounded, 0.5⟩] 500 (by decide)).2.1⟩

/-- Bounds on the accumulated dollar fee of the tier walk: when every tier
rate lies in `[m, M]` and every bounded tier is well-formed
(`lower ≤ upper`), the accumulated fee lies between `m/100` and `M/100`
times the amount consumed, `r - (feeWalk ts r).2`. -/
theorem feeWalk_fee_bounds (m M : ℚ) : ∀ (ts : List Tier) (r : ℚ), 0 ≤ r →
    (∀ t ∈ ts, m ≤ t.fee ∧ t.fee ≤ M) →
    (∀ t ∈ ts, ∀ u, t.upper = UpperBound.bounded u → t.lower ≤ u) →
    m / 100 * (r - (feeWalk ts r).2) ≤ (feeWalk ts r).1 ∧
    (feeWalk ts r).1 ≤ M / 100 * (r - (feeWalk ts r).2) := by
  intro ts
  induction ts with
  | nil => intro r h0 hb hwf; simp [feeWalk]
  | cons t ts ih =>
    intro r h0 hb hwf
    have hbf := hb t (List.mem_cons_self t ts)
    have hb' : ∀ t' ∈ ts, m ≤ t'.fee ∧ t'.fee ≤ M :=
      fun t' ht' => hb t' (List.mem_cons_of_mem _ ht')
    have hwf' : ∀ t' ∈ ts, ∀ u, t'.upper = UpperBound.bounded u → t'.lower ≤ u :=
      fun t' ht' => hwf t' (List.mem_cons_of_mem _ ht')
    by_cases hr : r ≤ 0
    · simp [feeWalk, hr]
    · push_neg at hr
      cases hu : t.upper with
      | unbounded =>
        simp only [feeWalk, if_neg (not_le.2 hr), hu, feeWalk_zero]
        constructor
        · nlinarith [mul_nonneg hr.le (sub_nonneg.2 hbf.1)]
        · nlinarith [mul_nonneg hr.le (sub_nonneg.2 hbf.2)]
      | bounded u =>
        have hlu : t.lower ≤ u := hwf t (List.mem_cons_self t ts) u hu
        have hw0 : 0 ≤ min (u - t.lower) r := le_min (by linarith) hr.le
        have hr' : 0 ≤ r - min (u - t.lower) r := by
          have := min_le_right (u - t.lower) r
          linarith
        have hi := ih (r - min (u - t.lower) r) hr' hb' hwf'
        simp only [feeWalk, if_neg (not_le.2 hr), hu]
        constructor
        · nlinarith [hi.1, mul_nonneg hw0 (sub_nonneg.2 hbf.1)]
        · nlinarith [hi.2, mul_nonneg hw0 (sub_nonneg.2 hbf.2)]

/-- When the last tier of a nonempty tier chain is unbounded, the walk
always consumes the whole portfolio value: the remaining value ends at 0. -/
theorem feeWalk_rem_eq_zero : ∀ (ts : List Tier) (tl : Tier) (r : ℚ), 0 ≤ r →
    ts.getLast? = some tl → tl.upper = UpperBound.unbounded → (feeWalk ts r).2 = 0 := by
  intro ts
  induction ts with
  | nil => intro tl r h0 hl hu; simp at hl
  | cons t ts ih =>
    intro tl r h0 hl hu
    by_cases hr : r ≤ 0
    · have : r = 0 := le_antisymm hr h0
      simp [feeWalk, hr, this]
    · cases ts with
      | nil =>
        have ht : t = tl := by simpa using hl
        subst ht
        simp [feeWalk, hr, hu]
      | cons t2 ts2 =>
        have hl' : (t2 :: ts2).getLast? = some tl := by
          simpa [List.getLast?_cons_cons] using hl
        cases hu2 : t.upper with
        | unbounded => simp [feeWalk, hr, hu2, feeWalk_zero]
        | bounded u =>
          have hr' : 0 ≤ r - min (u - t.lower) r := by
            have := min_le_right (u - t.lower) r
            linarith
          simpa [feeWalk, hr, hu2] using ih tl (r - min (u - t.lower) r) hr' hl' hu

section EffectiveFeeRange

attribute [local semireducible] Rat.mul Rat.add Rat.sub Rat.inv Rat.ofScientific

/-- Counterexample to claim C6 as stated: the single-tier product
`[(0, 1000, 1.0%)]` has trivially monotonic rates with minimum and maximum
tier rate both `1`, yet at `V = 2000 > 0` the calculator consumes only the
1000-wide tier (fee 10) and returns the blended rate `0.5`, which lies
strictly below the minimum tier rate.  The claim fails because nothing
guarantees the tiers cover the whole portfolio value. -/
theorem effective_fee_below_min_rate_cex :
    calculate_effective_fee [FeeProduct.tiered [⟨0, UpperBound.bounded 1000, 1⟩]] 2000
      = some (1/2) ∧ ¬((1 : ℚ) ≤ 1/2) := by
  constructor
  · decide
  · decide

end EffectiveFeeRange

/-- Claim C6, amended (corrected): for a tiered product whose rates are
monotonic across the tier sequence, the blended rate lies between the
minimum and maximum tier rate *provided the tier chain is well-formed
(bounded tiers have `lower ≤ upper`) and ends in an unbounded tier* (so the
walk consumes all of `V`); the counterexample
`effective_fee_below_min_rate_cex` shows the coverage condition is
necessary.  Stated for any bounds `m ≤ rates ≤ M`, hence in particular for
the minimum and maximum tier rate, for the first tiered product of the
ProductSet — the one the Effective Fee Calculator uses. -/
theorem effective_fee_between_min_and_max_rates
    (ps : List FeeProduct) (t0 : Tier) (rest : List Tier) (V m M : ℚ)
    (hfirst : (ps.filter FeeProduct.isTiered).head? = some (FeeProduct.tiered (t0 :: rest)))
    (_hmono : List.Chain' (· ≤ ·) ((t0 :: rest).map Tier.fee) ∨
              List.Chain' (fun a b : ℚ => b ≤ a) ((t0 :: rest).map Tier.fee))
    (hwf : ∀ t ∈ t0 :: rest, ∀ u, t.upper = UpperBound.bounded u → t.lower ≤ u)
    (hlast : ∀ tl, (t0 :: rest).getLast? = some tl → tl.upper = UpperBound.unbounded)
    (hb : ∀ t ∈ t0 :: rest, m ≤ t.fee ∧ t.fee ≤ M)
    (hV : 0 < V) :
    calculate_effective_fee ps V = some ((feeWalk (t0 :: rest) V).1 / V * 100) ∧
    m ≤ (feeWalk (t0 :: rest) V).1 / V * 100 ∧
    (feeWalk (t0 :: rest) V).1 / V * 100 ≤ M := by
  rcases hfl : ps.filter FeeProduct.isTiered with _ | ⟨p, l'⟩
  · rw [hfl] at hfirst
    simp at hfirst
  · rw [hfl] at hfirst
    simp only [List.head?_cons, Option.some.injEq] at hfirst
    subst hfirst
    have hne : ps ≠ [] := by
      intro h
      subst h
      simp at hfl
    have hE : ps.isEmpty = false := by
      cases ps
      · exact absurd rfl hne
      · rfl
    obtain ⟨tl, htl⟩ : ∃ tl, (t0 :: rest).getLast? = some tl :=
      ⟨(t0 :: rest).getLast (List.cons_ne_nil t0 rest), List.getLast?_eq_getLast _ _⟩
    have hrem := feeWalk_rem_eq_zero (t0 :: rest) tl V hV.le htl (hlast tl htl)
    have hbd := feeWalk_fee_bounds m M (t0 :: rest) V hV.le hb hwf
    rw [hrem, sub_zero] at hbd
    refine ⟨?_, ?_, ?_⟩
    · simp [calculate_effective_fee, hE, hfl]
    · have e : (feeWalk (t0 :: rest) V).1 / V * 100 = (feeWalk (t0 :: rest) V).1 * 100 / V := by
        ring
      rw [e, le_div_iff₀ hV]
      nlinarith [hbd.1]
    · have e : (feeWalk (t0 :: rest) V).1 / V * 100 = (feeWalk (t0 :: rest) V).1 * 100 / V := by
        ring
      rw [e, div_le_iff₀ hV]
      nlinarith [hbd.2]

/-- Witness for the amended C6 at the one-tier product `[(0, unbounded, 1%)]`
with `V = 100` and bounds `m = M = 1`. -/
theorem effective_fee_between_min_and_max_rates_witness :
    calculate_effective_fee [FeeProduct.tiered [⟨0, UpperBound.unbounded, 1⟩]] 100
      = some ((feeWalk [⟨0, UpperBound.unbounded, 1⟩] 100).1 / 100 * 100) ∧
    1 ≤ (feeWalk [⟨0, UpperBound.unbounded, 1⟩] 100).1 / 100 * 100 ∧
    (feeWalk [⟨0, UpperBound.unbounded, 1⟩] 100).1 / 100 * 100 ≤ 1 :=
  effective_fee_between_min_and_max_rates
    [FeeProduct.tiered [⟨0, UpperBound.unbounded, 1⟩]] ⟨0, UpperBound.unbounded, 1⟩ [] 100 1 1
    rfl
    (Or.inl (by simp))
    (by
      intro t ht u hu
      rw [List.mem_singleton] at ht
      subst ht
      simp at hu)
    (by
      intro tl htl
      have : (⟨0, UpperBound.unbounded, 1⟩ : Tier) = tl := by simpa using htl
      rw [← this])
    (by
      intro t ht
      rw [List.mem_singleton] at ht
      subst ht
      exact ⟨le_rfl, le_rfl⟩)
    (by decide)

/-! ### Sentinel handling and presence inference of the Field Normalizer -/

/-- Counterexample to claim C8 as stated: the sentinel tokens are not all
mapped to absent.  `process_flat_fee` never tests for `'n/a'` and returns
present-with-unknown-value on `"N/A"`; none of the three normalizers tests
for `'-1'`, whose digit is picked up by the bare-number fallback pattern,
so all three return present with value `1` on `"-1"`. -/
theorem sentinel_tokens_not_all_absent_cex :
    process_flat_fee (some "N/A") = (1, none) ∧
    process_flat_fee (some "-1") = (1, some 1) ∧
    process_minimum_investment (some "-1") = (1, some 1) ∧
    process_negotiable_threshold (some "-1") = (1, some 1) :=
  ⟨by decide, by decide, by decide, by decide⟩

/-- Claim C8, amended (corrected): the sentinel policy actually implemented
is: `process_flat_fee` returns absent exactly on missing cells, on `'no'`
(case-insensitive) and on whitespace-only text; `process_minimum_investment`
and `process_negotiable_threshold` additionally on `'n/a'`
(case-insensitive).  `'-1'` is a sentinel for none of the three operations —
each returns present with value `1` — and `process_flat_fee` treats `'N/A'`
as present with unknown value. -/
theorem sentinel_absence_amended :
    (∀ s : String, strLower s = "no" ∨ strStrip s = "" →
        process_flat_fee (some s) = (0, none)) ∧
    (∀ s : String, strLower s = "no" ∨ strLower s = "n/a" ∨ strStrip s = "" →
        process_minimum_investment (some s) = (0, none) ∧
        process_negotiable_threshold (some s) = (0, none)) ∧
    process_flat_fee none = (0, none) ∧
    process_minimum_investment none = (0, none) ∧
    process_negotiable_threshold none = (0, none) ∧
    process_flat_fee (some "N/A") = (1, none) ∧
    process_flat_fee (some "-1") = (1, some 1) ∧
    process_minimum_investment (some "-1") = (1, some 1) ∧
    process_negotiable_threshold (some "-1") = (1, some 1) := by
  refine ⟨?_, ?_, rfl, rfl, rfl, by decide, by decide, by decide, by decide⟩
  · intro s h
    simp only [process_flat_fee]
    rw [if_pos h]
  · intro s h
    constructor
    · simp only [process_minimum_investment]
      rw [if_pos h]
    · simp only [process_negotiable_threshold]
      rw [if_pos h]

/-- Witness for the amended C8 on the concrete sentinels `"No"`, `"N/A"`
and a whitespace-only cell. -/
theorem sentinel_absence_amended_witness :
    process_flat_fee (some "No") = (0, none) ∧
    process_minimum_investment (some "N/A") = (0, none) ∧
    process_negotiable_threshold (some " ") = (0, none) :=
  ⟨sentinel_absence_amended.1 "No" (Or.inl (by decide)),
   (sentinel_absence_amended.2.1 "N/A" (Or.inr (Or.inl (by decide)))).1,
   (sentinel_absence_amended.2.1 " " (Or.inr (Or.inr (by decide)))).2⟩

/-- Text containing no decimal digit anywhere. -/
def noDigit (s : String) : Prop := ∀ c ∈ s.data, c.isDigit = false

instance (s : String) : Decidable (noDigit s) :=
  List.decidableBAll _ s.data

/-- The numeric-token match fails on digit-free input. -/
theorem matchNumTok_eq_none (comma : Bool) (cs : List Char)
    (h : ∀ c ∈ cs, c.isDigit = false) : matchNumTok comma cs = none := by
  cases cs with
  | nil => rfl
  | cons c cs => simp [matchNumTok, h c (List.mem_cons_self c cs)]

/-- The percent pattern finds nothing in digit-free input. -/
theorem pctSearch_eq_none (s : String) (h : noDigit s) : pctSearch s = none := by
  unfold pctSearch
  have aux : ∀ cs : List Char, (∀ c ∈ cs, c.isDigit = false) → reSearch tryPct cs = none := by
    intro cs
    induction cs with
    | nil => intro _; rfl
    | cons c cs ih =>
      intro hcs
      have hc : tryPct (c :: cs) = none := by
        simp [tryPct, matchNumTok_eq_none false _ hcs]
      simp [reSearch, hc, ih (fun c' hc' => hcs c' (List.mem_cons_of_mem _ hc'))]
  exact aux s.data h

/-- The dollar-amount pattern finds nothing in digit-free input (the `\$`
anchor must be followed by at least one digit). -/
theorem dollarSearch_eq_none (s : String) (h : noDigit s) : dollarSearch s = none := by
  unfold dollarSearch
  have haux : ∀ cs : List Char, (∀ c ∈ cs, c.isDigit = false) → tryDollar cs = none := by
    intro cs hcs
    unfold tryDollar
    split
    · next cs1 =>
      simp [matchNumTok_eq_none true cs1 (fun c hc => hcs c (List.mem_cons_of_mem _ hc))]
    · rfl
  have aux : ∀ cs : List Char, (∀ c ∈ cs, c.isDigit = false) → reSearch tryDollar cs = none := by
    intro cs
    induction cs with
    | nil => intro _; rfl
    | cons c cs ih =>
      intro hcs
      simp [reSearch, haux (c :: cs) hcs, ih (fun c' hc' => hcs c' (List.mem_cons_of_mem _ hc'))]
  exact aux s.data h

/-- The bare-number pattern finds nothing in digit-free input. -/
theorem numSearch_eq_none (comma : Bool) (s : String) (h : noDigit s) :
    numSearch comma s = none := by
  unfold numSearch
  have aux : ∀ cs : List Char, (∀ c ∈ cs, c.isDigit = false) →
      reSearch (tryNum comma) cs = none := by
    intro cs
    induction cs with
    | nil => intro _; rfl
    | cons c cs ih =>
      intro hcs
      have hc : tryNum comma (c :: cs) = none := by
        simp [tryNum, matchNumTok_eq_none comma _ hcs]
      simp [reSearch, hc, ih (fun c' hc' => hcs c' (List.mem_cons_of_mem _ hc'))]
  exact aux s.data h

/-- Counterexample to claim C9 as stated: `"Maybe"` and `"Varies"` are
non-sentinel texts with no `$`/`%` marker and no numeric token, yet
`process_minimum_investment` and `process_negotiable_threshold` return
*absent* (their fall-through is `return 0, None`), not present. -/
theorem marker_free_text_not_always_present_cex :
    process_minimum_investment (some "Maybe") = (0, none) ∧
    process_negotiable_threshold (some "Varies") = (0, none) :=
  ⟨by decide, by decide⟩

/-- Claim C9, amended (corrected): presence tracks the sentinel test only in
`process_flat_fee`, whose every non-sentinel branch returns present (with
unknown value when the text has no digit at all).  For
`process_minimum_investment` and `process_negotiable_threshold` the claim
fails: non-sentinel digit-free text yields absent `(0, none)` — except the
yes-tokens of `process_minimum_investment`, which yield present. -/
theorem presence_after_sentinel_amended :
    (∀ s : String, ¬(strLower s = "no" ∨ strStrip s = "") →
        (process_flat_fee (some s)).1 = 1) ∧
    (∀ s : String, ¬(strLower s = "no" ∨ strStrip s = "") → noDigit s →
        process_flat_fee (some s) = (1, none)) ∧
    (∀ s : String, ¬(strLower s = "no" ∨ strLower s = "n/a" ∨ strStrip s = "") → noDigit s →
        ¬(strLower s = "yes" ∨ strLower s = "y" ∨ strLower s = "true") →
        process_minimum_investment (some s) = (0, none)) ∧
    (∀ s : String, ¬(strLower s = "no" ∨ strLower s = "n/a" ∨ strStrip s = "") → noDigit s →
        process_negotiable_threshold (some s) = (0, none)) := by
  refine ⟨?_, ?_, ?_, ?_⟩
  · intro s h
    simp only [process_flat_fee]
    rw [if_neg h]
    rcases hp : pctSearch s with _ | v <;> simp only [hp]
    · rcases hd : dollarSearch s with _ | v <;> simp only [hd]
      · by_cases hy : strLower s = "yes" ∨ strLower s = "y" ∨ strLower s = "true"
        · rw [if_pos hy]
        · rw [if_neg hy]
          rcases hn : numSearch false s with _ | v <;> simp only [hn]
  · intro s h hnd
    simp only [process_flat_fee]
    rw [if_neg h]
    simp only [pctSearch_eq_none s hnd, dollarSearch_eq_none s hnd,
      numSearch_eq_none false s hnd]
    by_cases hy : strLower s = "yes" ∨ strLower s = "y" ∨ strLower s = "true"
    · rw [if_pos hy]
    · rw [if_neg hy]
  · intro s h hnd hy
    simp only [process_minimum_investment]
    rw [if_neg h]
    simp only [dollarSearch_eq_none s hnd, numSearch_eq_none true s hnd]
    rw [if_neg hy]
  · intro s h hnd
    simp only [process_negotiable_threshold]
    rw [if_neg h]
    simp only [dollarSearch_eq_none s hnd, numSearch_eq_none true s hnd]

/-- Witness for the amended C9 on concrete marker-free texts. -/
theorem presence_after_sentinel_amended_witness :
    (process_flat_fee (some "Unknown")).1 = 1 ∧
    process_flat_fee (some "Unknown") = (1, none) ∧
    process_minimum_investment (some "Pending") = (0, none) ∧
    process_negotiable_threshold (some "Flexible") = (0, none) :=
  ⟨presence_after_sentinel_amended.1 "Unknown" (by decide),
   presence_after_sentinel_amended.2.1 "Unknown" (by decide) (by decide),
   presence_after_sentinel_amended.2.2.1 "Pending" (by decide) (by decide) (by decide),
   presence_after_sentinel_amended.2.2.2 "Flexible" (by decide) (by decide)⟩

/-! ### Comparing the two Product Segmenter implementations -/

/-- The retained threshold ranges of `identify_products` in
`enhanced_fee_analysis.py`, in column order: exactly the tiers its
column walk processes (non-NaN, not literal `'N/A'`, lower bound and fee
both present). -/
def retained1 : List (Option String) → List Tier
  | [] => []
  | none :: cs => retained1 cs
  | some s :: cs =>
    if s = "N/A" then retained1 cs
    else
      match tierOfExtract (extract_fee_range (some s)) with
      | some t => t :: retained1 cs
      | none => retained1 cs

/-- The grouping part of the column walk of `identify_products`
(`enhanced_fee_analysis.py`), expressed over the retained tier list. -/
def buildProducts (ps : List FeeProduct) : List Tier → List FeeProduct
  | [] => ps
  | t :: ts =>
    buildProducts
      (match appendTier ps t with
       | some ps' => ps'
       | none => ps ++ [FeeProduct.tiered [t]]) ts

/-- The cell fold of `identify_products` factors through the retained
ranges: cells that contribute no tier leave the product list unchanged. -/
theorem foldl_step1_eq_buildProducts :
    ∀ (cells : List (Option String)) (ps : List FeeProduct),
      List.foldl step1 ps cells = buildProducts ps (retained1 cells) := by
  intro cells
  induction cells with
  | nil => intro ps; rfl
  | cons cell cs ih =>
    intro ps
    cases cell with
    | none => simp [List.foldl_cons, step1, retained1, ih]
    | some s =>
      by_cases hna : s = "N/A"
      · simp [List.foldl_cons, step1, retained1, hna, ih]
      · cases hx : tierOfExtract (extract_fee_range (some s)) with
        | some t =>
          simp [List.foldl_cons, step1, retained1, hna, hx, ih, buildProducts]
        | none => simp [List.foldl_cons, step1, retained1, hna, hx, ih]

/-- The tier list continues `a` as one contiguous ascending chain: each
consecutive pair joins exactly at a bounded, well-formed upper bound
(`a.lower < u` and `b.lower = u`); only the final tier may be unbounded. -/
def chainedFrom : Tier → List Tier → Bool
  | _, [] => true
  | a, b :: l =>
    (match a.upper with
     | UpperBound.bounded u => decide (a.lower < u) && decide (b.lower = u)
     | UpperBound.unbounded => false) && chainedFrom b l

/-- Along a contiguous chain, the v1 walk keeps appending to the single
tiered product: each range joins its last tier with gap `0 < 0.01`. -/
theorem buildProducts_chain :
    ∀ (l : List Tier) (pre : List Tier) (a : Tier), chainedFrom a l = true →
      buildProducts [FeeProduct.tiered (pre ++ [a])] l
        = [FeeProduct.tiered (pre ++ a :: l)] := by
  intro l
  induction l with
  | nil => intro pre a _; simp [buildProducts]
  | cons b l ih =>
    intro pre a hch
    cases hu : a.upper with
    | unbounded => simp [chainedFrom, hu] at hch
    | bounded u =>
      simp only [chainedFrom, hu, Bool.and_eq_true, decide_eq_true_eq] at hch
      have hcont : tierContinues a b.lower = true := by
        simp only [tierContinues, hu, hch.1.2, decide_eq_true_eq]
        norm_num
      have happ : appendTier [FeeProduct.tiered (pre ++ [a])] b
          = some [FeeProduct.tiered ((pre ++ [a]) ++ [b])] := by
        simp [appendTier, List.getLast?_concat, hcont]
      have hstep : buildProducts [FeeProduct.tiered (pre ++ [a])] (b :: l)
          = buildProducts [FeeProduct.tiered ((pre ++ [a]) ++ [b])] l := by
        simp [buildProducts, happ]
      rw [hstep, ih (pre ++ [a]) b hch.2]
      simp

/-- A chained tier list is already sorted by lower bound, so the stable sort
of the v3 implementation leaves it unchanged. -/
theorem chainedFrom_sorted (a : Tier) (l : List Tier) (h : chainedFrom a l = true) :
    List.insertionSort (fun x y : Tier => x.lower ≤ y.lower) (a :: l) = a :: l := by
  apply List.Sorted.insertionSort_eq
  have hchain : List.Chain (fun x y : Tier => x.lower < y.lower) a l := by
    induction l generalizing a with
    | nil => exact List.Chain.nil
    | cons b l ih =>
      cases hu : a.upper with
      | unbounded => simp [chainedFrom, hu] at h
      | bounded u =>
        simp only [chainedFrom, hu, Bool.and_eq_true, decide_eq_true_eq] at h
        exact List.Chain.cons (by rw [h.1.2]; exact h.1.1) (ih b h.2)
  haveI : IsTrans Tier (fun x y : Tier => x.lower < y.lower) :=
    ⟨fun _ _ _ h1 h2 => lt_trans h1 h2⟩
  have hp : List.Pairwise (fun x y : Tier => x.lower < y.lower) (a :: l) :=
    List.chain_iff_pairwise.mp hchain
  exact hp.imp (fun h => le_of_lt h)

/-- Along a contiguous chain, the v3 grouping loop keeps the current
product: each range joins the previous range's upper bound with gap
`0 < 0.01`. -/
theorem groupChain_chain :
    ∀ (l cur : List Tier) (a : Tier), chainedFrom a l = true →
      Step3.groupChain (cur ++ [a]) a.upper l = [cur ++ a :: l] := by
  intro l
  induction l with
  | nil => intro cur a _; simp [Step3.groupChain]
  | cons b l ih =>
    intro cur a hch
    cases hu : a.upper with
    | unbounded => simp [chainedFrom, hu] at hch
    | bounded u =>
      simp only [chainedFrom, hu, Bool.and_eq_true, decide_eq_true_eq] at hch
      have hcont : Step3.contCond (UpperBound.bounded u) b.lower = true := by
        simp only [Step3.contCond, hch.1.2, decide_eq_true_eq]
        norm_num
      have hstep : Step3.groupChain (cur ++ [a]) (UpperBound.bounded u) (b :: l)
          = Step3.groupChain ((cur ++ [a]) ++ [b]) b.upper l := by
        simp [Step3.groupChain, hcont]
      rw [hstep, ih (cur ++ [a]) b hch.2]
      simp

/-- Claim C10, amended (corrected): the two `identify_products`
implementations are not equivalent in general (see
`segmenters_differ_cex`), but they agree on every row with no flat-fee
product whose retained threshold ranges form, in column order, a single
contiguous ascending chain (each range's lower bound equals the previous
range's bounded, well-formed upper bound; only the last range may be
unbounded): both then return exactly one tiered product holding the
retained ranges as tiers in column order. -/
theorem segmenters_agree_on_contiguous_chain
    (row : FilingRow) (r0 : Tier) (rest : List Tier)
    (hflat : row.has_flat_fee = false)
    (h1 : retained1 row.cells = r0 :: rest)
    (h3 : Step3.retainedRanges row.cells = r0 :: rest)
    (hchain : chainedFrom r0 rest = true) :
    identify_products row = Step3.identify_products row ∧
    identify_products row = (1, [FeeProduct.tiered (r0 :: rest)]) := by
  have hb := buildProducts_chain rest [] r0 hchain
  simp only [List.nil_append] at hb
  have hg := groupChain_chain rest [] r0 hchain
  simp only [List.nil_append] at hg
  have hv1 : identify_products row = (1, [FeeProduct.tiered (r0 :: rest)]) := by
    simp only [identify_products, hflat, if_false, Bool.false_eq_true,
      foldl_step1_eq_buildProducts, h1]
    have h0 : buildProducts ([] : List FeeProduct) (r0 :: rest)
        = buildProducts [FeeProduct.tiered [r0]] rest := by
      simp [buildProducts, appendTier]
    rw [h0, hb]
    simp [List.insertionSort, List.orderedInsert]
  have hv3 : Step3.identify_products row = (1, [FeeProduct.tiered (r0 :: rest)]) := by
    simp only [Step3.identify_products, hflat, Bool.false_and, if_false, Bool.false_eq_true,
      h3, chainedFrom_sorted r0 rest hchain]
    rw [hg]
    simp [List.insertionSort, List.orderedInsert]
  exact ⟨hv1.trans hv3.symm, hv1⟩

section SegmenterWitness

attribute [local semireducible] Rat.mul Rat.add Rat.sub Rat.inv Rat.ofScientific

/-- Counterexample to claim C10 as stated: on `rowAfterUnbounded` (same
flat-fee fields and same threshold texts for both implementations) the two
implementations disagree — `enhanced_fee_analysis.py` yields one product,
`enhanced_fee_analysis_step3.py` yields three (see
`identify_products_after_unbounded_tier_example`). -/
theorem segmenters_differ_cex :
    identify_products rowAfterUnbounded ≠ Step3.identify_products rowAfterUnbounded := by
  decide

/-- Witness for the amended C10 on `rowContiguous`, whose three ranges chain
contiguously: both implementations return the same single tiered product. -/
theorem segmenters_agree_on_contiguous_chain_witness :
    identify_products rowContiguous = Step3.identify_products rowContiguous ∧
    identify_products rowContiguous
      = (1, [FeeProduct.tiered
          [⟨0, UpperBound.bounded 1000000, 1⟩, ⟨1000000, UpperBound.bounded 5000000, 0.75⟩,
           ⟨5000000, UpperBound.unbounded, 0.5⟩]]) :=
  segmenters_agree_on_contiguous_chain rowContiguous
    ⟨0, UpperBound.bounded 1000000, 1⟩
    [⟨1000000, UpperBound.bounded 5000000, 0.75⟩, ⟨5000000, UpperBound.unbounded, 0.5⟩]
    rfl (by decide) (by decide) (by decide)

end SegmenterWitness
